import Mathlib

/-!
Verification of the rectangle geometry kernel (`owm-problem/src/rect.rs`).

The Rust code works on `usize` coordinates with `NonZeroUsize` dimensions.
We embed coordinates as `Nat`; the `NonZeroUsize` typing discipline is
carried as explicit positivity hypotheses or as the `Rect.Valid` predicate.
Fallible construction (`try_into().unwrap()`) is embedded as `Option`.
Geometric regions are modelled discretely: a rectangle with integer
corners is the finite set of unit lattice cells it covers, and the area of
a region equals the cardinality of its cell set.
-/

structure Pos where
  x : Nat
  y : Nat
deriving DecidableEq, Repr

structure Size where
  width : Nat
  height : Nat
deriving DecidableEq, Repr

structure Rect where
  pos : Pos
  size : Size
deriving DecidableEq, Repr

def Pos.new (x y : Nat) : Pos := ⟨x, y⟩

/-- `Pos::dist`: Manhattan distance, with the unsigned-safe larger-minus-smaller split. -/
def Pos.dist (p q : Pos) : Nat :=
  (if p.x > q.x then p.x - q.x else q.x - p.x) + (if p.y > q.y then p.y - q.y else q.y - p.y)

def Size.new (width height : Nat) : Size := ⟨width, height⟩

/-- `NonZeroUsize::try_from`: fails exactly on zero. -/
def nonZeroTryFrom (n : Nat) : Option Nat :=
  if n = 0 then none else some n

/-- `Size::new_checked`: converts each raw dimension, failing on zero. -/
def Size.new_checked (width height : Nat) : Option Size :=
  (nonZeroTryFrom width).bind fun w => (nonZeroTryFrom height).map fun h => ⟨w, h⟩

def Size.area (s : Size) : Nat := s.width * s.height

def Rect.new (x y width height : Nat) : Rect := ⟨Pos.new x y, Size.new width height⟩

def Rect.new_checked (x y width height : Nat) : Option Rect :=
  (Size.new_checked width height).map fun s => ⟨Pos.new x y, s⟩

def Rect.left (r : Rect) : Nat := r.pos.x

def Rect.right (r : Rect) : Nat := r.pos.x + r.size.width

def Rect.top (r : Rect) : Nat := r.pos.y

def Rect.bottom (r : Rect) : Nat := r.pos.y + r.size.height

def Rect.area (r : Rect) : Nat := r.size.area

/-- `Rect::expand_left`: move the origin left by `value`, grow the width. -/
def Rect.expand_left (r : Rect) (value : Nat) : Rect :=
  ⟨⟨r.pos.x - value, r.pos.y⟩, ⟨r.size.width + value, r.size.height⟩⟩

/-- `Rect::expand_right`: grow the width only. -/
def Rect.expand_right (r : Rect) (value : Nat) : Rect :=
  ⟨⟨r.pos.x, r.pos.y⟩, ⟨r.size.width + value, r.size.height⟩⟩

/-- `Rect::expand_top`: move the origin up by `value`, grow the height. -/
def Rect.expand_top (r : Rect) (value : Nat) : Rect :=
  ⟨⟨r.pos.x, r.pos.y - value⟩, ⟨r.size.width, r.size.height + value⟩⟩

/-- `Rect::expand_bottom`: grow the height only. -/
def Rect.expand_bottom (r : Rect) (value : Nat) : Rect :=
  ⟨⟨r.pos.x, r.pos.y⟩, ⟨r.size.width, r.size.height + value⟩⟩

/-- `Rect::overlap`: intersection rectangle under strict overlap on both axes. -/
def Rect.overlap (a b : Rect) : Option Rect :=
  let l := max a.left b.left
  let r := min a.right b.right
  let t := max a.top b.top
  let bo := min a.bottom b.bottom
  if l < r ∧ t < bo then some ⟨⟨l, t⟩, ⟨r - l, bo - t⟩⟩ else none

/-- The invariant `right > left` and `bottom > top` of the spec. -/
def Rect.Valid (r : Rect) : Prop := r.left < r.right ∧ r.top < r.bottom

/-- `Vec::dedup`: remove consecutive duplicates. -/
def dedupAdj : List Nat → List Nat
  | [] => []
  | [a] => [a]
  | a :: b :: rest => if a = b then dedupAdj (b :: rest) else a :: dedupAdj (b :: rest)

/-- The inner sweep of `covered_area`: walk the strip-spanning rectangles in
top order, keeping the lowest y covered so far, and add
`width * (bottom - max last_y2 top)` for each (`saturating_sub` is `Nat` sub). -/
def stripSweep (width : Nat) : List Rect → Nat → Nat
  | [], _ => 0
  | r :: rest, last_y2 =>
      width * (r.bottom - max last_y2 r.top) + stripSweep width rest (max r.bottom last_y2)

/-- The `xs` of `covered_area`: every left/right edge, sorted, deduplicated. -/
def cutLines (rects : List Rect) : List Nat :=
  dedupAdj (List.insertionSort (· ≤ ·) (rects.flatMap fun r => [r.left, r.right]))

/-- The `rects` of `covered_area` after `sort_by_key(top)`. -/
def sortedByTop (rects : List Rect) : List Rect :=
  List.insertionSort (fun a b => a.top ≤ b.top) rects

/-- `covered_area`: total area of a union of rectangles via coordinate compression. -/
def covered_area (rects : List Rect) : Nat :=
  (((cutLines rects).zip (cutLines rects).tail).map fun p =>
    stripSweep (p.2 - p.1)
      ((sortedByTop rects).filter fun r => decide (r.left ≤ p.1 ∧ p.2 ≤ r.right)) 0).sum

/-- One entry of the `overlaps` vector of `obscured_area`: all pairwise overlap
rectangles of the rectangle at enumerated position `p` against the others. -/
def overlapsOf (rects : List Rect) (p : Nat × Rect) : List Rect :=
  (rects.enum.filter fun q => decide (p.1 ≠ q.1)).filterMap fun q => p.2.overlap q.2

/-- The `overlaps` vector of `obscured_area`. -/
def allOverlaps (rects : List Rect) : List (List Rect) :=
  rects.enum.map (overlapsOf rects)

/-- `obscured_area`: per-rectangle pairwise-overlap unions, summed, minus the pooled union. -/
def obscured_area (rects : List Rect) : Nat :=
  if rects.length < 2 then 0
  else ((allOverlaps rects).map covered_area).sum - covered_area (allOverlaps rects).flatten

structure RangeExclusive (T : Type) where
  lo : T
  hi : T
deriving DecidableEq, Repr

/-- `RangeExclusive::contains`: strict on both ends. -/
def RangeExclusive.contains {T : Type} [LinearOrder T] (s : RangeExclusive T) (x : T) : Bool :=
  decide (s.lo < x) && decide (x < s.hi)

def RangeExclusive.contains_either {T : Type} [LinearOrder T]
    (s o : RangeExclusive T) : Bool :=
  s.contains o.lo || s.contains o.hi

def RangeExclusive.intersects {T : Type} [LinearOrder T]
    (s o : RangeExclusive T) : Bool :=
  decide (s = o) || s.contains_either o || o.contains_either s

def Rect.x_range_exclusive (r : Rect) : RangeExclusive Nat := ⟨r.left, r.right⟩

def Rect.y_range_exclusive (r : Rect) : RangeExclusive Nat := ⟨r.top, r.bottom⟩

/-- The set of unit lattice cells covered by a rectangle: its region, discretely. -/
def Rect.cells (r : Rect) : Finset (Nat × Nat) :=
  Finset.Ico r.left r.right ×ˢ Finset.Ico r.top r.bottom

/-- The union of the rectangles' regions, as a finite cell set. -/
def unionCells (rects : List Rect) : Finset (Nat × Nat) :=
  rects.foldr (fun r s => r.cells ∪ s) ∅

/-- How many rectangles of the list cover a given cell (with multiplicity). -/
def coverCount (rects : List Rect) (p : Nat × Nat) : Nat :=
  (rects.filter fun r => decide (p ∈ r.cells)).length

/-- The y-interval union of a list of rectangles, within one vertical strip. -/
def colUnion (l : List Rect) : Finset Nat :=
  l.foldr (fun r s => Finset.Ico r.top r.bottom ∪ s) ∅

def maxRight (rects : List Rect) : Nat := rects.foldr (fun r m => max r.right m) 0

def maxBottom (rects : List Rect) : Nat := rects.foldr (fun r m => max r.bottom m) 0

/-- A bounding grid containing every cell any of the rectangles covers. -/
def allCells (rects : List Rect) : Finset (Nat × Nat) :=
  Finset.range (maxRight rects) ×ˢ Finset.range (maxBottom rects)

/-- Number of covered cells in the single column at abscissa `x`. -/
def colCard (rects : List Rect) (x : Nat) : Nat :=
  ((unionCells rects).filter fun q => q.1 = x).card

instance : IsTotal Rect (fun a b => a.top ≤ b.top) :=
  ⟨fun a b => Nat.le_total a.top b.top⟩

instance : IsTrans Rect (fun a b => a.top ≤ b.top) :=
  ⟨fun _ _ _ hab hbc => Nat.le_trans hab hbc⟩

instance : IsTotal Nat (· ≤ ·) := ⟨Nat.le_total⟩

/-- Unfolding lemma for `Rect.overlap`. -/
theorem overlap_eq (a b : Rect) :
    a.overlap b =
      if max a.left b.left < min a.right b.right ∧ max a.top b.top < min a.bottom b.bottom then
        some ⟨⟨max a.left b.left, max a.top b.top⟩,
          ⟨min a.right b.right - max a.left b.left, min a.bottom b.bottom - max a.top b.top⟩⟩
      else none := rfl

/-- C4: `overlap` returns some rectangle iff `max(lefts) < min(rights)` and
`max(tops) < min(bottoms)`; in that case the result has position
(max of lefts, max of tops) and size (min of rights minus max of lefts,
min of bottoms minus max of tops); edge- or corner-touching yields `none`. -/
theorem c4_overlap_characterization (a b : Rect) :
    ((a.overlap b).isSome ↔
      (max a.left b.left < min a.right b.right ∧ max a.top b.top < min a.bottom b.bottom)) ∧
    (∀ c : Rect, a.overlap b = some c →
      c.pos.x = max a.left b.left ∧ c.pos.y = max a.top b.top ∧
      c.size.width = min a.right b.right - max a.left b.left ∧
      c.size.height = min a.bottom b.bottom - max a.top b.top) := by
  rw [overlap_eq]
  by_cases h : max a.left b.left < min a.right b.right ∧ max a.top b.top < min a.bottom b.bottom
  · constructor
    · simp [h]
    · intro c hc
      rw [if_pos h] at hc
      injection hc with hc
      subst hc
      exact ⟨rfl, rfl, rfl, rfl⟩
  · constructor
    · simp [h]
    · intro c hc
      rw [if_neg h] at hc
      exact absurd hc (by simp)

/-- Witness for C4 at the spec's concrete example: rectangles (0,0,4×4) and (2,2,4×4). -/
theorem c4_overlap_characterization_witness :
    (Rect.new 2 2 2 2).pos.x = max (Rect.new 0 0 4 4).left (Rect.new 2 2 4 4).left ∧
    (Rect.new 2 2 2 2).pos.y = max (Rect.new 0 0 4 4).top (Rect.new 2 2 4 4).top ∧
    (Rect.new 2 2 2 2).size.width =
      min (Rect.new 0 0 4 4).right (Rect.new 2 2 4 4).right -
        max (Rect.new 0 0 4 4).left (Rect.new 2 2 4 4).left ∧
    (Rect.new 2 2 2 2).size.height =
      min (Rect.new 0 0 4 4).bottom (Rect.new 2 2 4 4).bottom -
        max (Rect.new 0 0 4 4).top (Rect.new 2 2 4 4).top :=
  (c4_overlap_characterization (Rect.new 0 0 4 4) (Rect.new 2 2 4 4)).2 (Rect.new 2 2 2 2)
    (by decide)

/-- C5: checked construction fails exactly when a dimension is zero, and for
positive dimensions builds the value with exactly those dimensions (no clamping). -/
theorem c5_new_checked_fails_iff_zero (width height x y : Nat) :
    (Size.new_checked width height = none ↔ width = 0 ∨ height = 0) ∧
    (Rect.new_checked x y width height = none ↔ width = 0 ∨ height = 0) ∧
    (0 < width → 0 < height →
      Size.new_checked width height = some ⟨width, height⟩ ∧
      Rect.new_checked x y width height = some ⟨⟨x, y⟩, ⟨width, height⟩⟩) := by
  by_cases hw : width = 0 <;> by_cases hh : height = 0 <;>
    simp [Size.new_checked, Rect.new_checked, nonZeroTryFrom, Pos.new, hw, hh]

/-- Witness for C5 at width 2, height 3, position (1, 4). -/
theorem c5_new_checked_witness :
    Size.new_checked 2 3 = some ⟨2, 3⟩ ∧
    Rect.new_checked 1 4 2 3 = some ⟨⟨1, 4⟩, ⟨2, 3⟩⟩ :=
  (c5_new_checked_fails_iff_zero 2 3 1 4).2.2 (by decide) (by decide)

/-- C6: every `Rect` produced by `new` (with positive dimensions), `new_checked`,
`overlap`, or the `expand_*` mutators (under the no-underflow precondition)
satisfies `right > left` and `bottom > top`. -/
theorem c6_valid_preserved (x y w h v : Nat) :
    (0 < w → 0 < h → (Rect.new x y w h).Valid) ∧
    (∀ r, Rect.new_checked x y w h = some r → r.Valid) ∧
    (∀ a b c : Rect, a.overlap b = some c → c.Valid) ∧
    (∀ r : Rect, r.Valid → v ≤ r.pos.x → (r.expand_left v).Valid) ∧
    (∀ r : Rect, r.Valid → (r.expand_right v).Valid) ∧
    (∀ r : Rect, r.Valid → v ≤ r.pos.y → (r.expand_top v).Valid) ∧
    (∀ r : Rect, r.Valid → (r.expand_bottom v).Valid) := by
  refine ⟨?_, ?_, ?_, ?_, ?_, ?_, ?_⟩
  · intro hw hh
    simp only [Rect.Valid, Rect.new, Rect.left, Rect.right, Rect.top, Rect.bottom, Pos.new,
      Size.new]
    omega
  · intro r hr
    by_cases hw : w = 0 <;> by_cases hh : h = 0 <;>
      simp [Rect.new_checked, Size.new_checked, nonZeroTryFrom, Pos.new, hw, hh] at hr
    subst hr
    simp only [Rect.Valid, Rect.left, Rect.right, Rect.top, Rect.bottom]
    omega
  · intro a b c hc
    rw [overlap_eq] at hc
    by_cases hcond : max a.left b.left < min a.right b.right ∧
        max a.top b.top < min a.bottom b.bottom
    · rw [if_pos hcond] at hc
      injection hc with hc
      subst hc
      have h1 := hcond.1
      have h2 := hcond.2
      simp only [Rect.Valid, Rect.left, Rect.right, Rect.top, Rect.bottom] at h1 h2 ⊢
      omega
    · rw [if_neg hcond] at hc
      exact absurd hc (by simp)
  · intro r hr hv
    simp only [Rect.Valid, Rect.left, Rect.right, Rect.top, Rect.bottom, Rect.expand_left] at *
    omega
  · intro r hr
    simp only [Rect.Valid, Rect.left, Rect.right, Rect.top, Rect.bottom, Rect.expand_right] at *
    omega
  · intro r hr hv
    simp only [Rect.Valid, Rect.left, Rect.right, Rect.top, Rect.bottom, Rect.expand_top] at *
    omega
  · intro r hr
    simp only [Rect.Valid, Rect.left, Rect.right, Rect.top, Rect.bottom, Rect.expand_bottom] at *
    omega

/-- Witness for C6 at concrete rectangles. -/
theorem c6_valid_preserved_witness :
    (Rect.new 1 4 2 3).Valid ∧
    (⟨⟨1, 4⟩, ⟨2, 3⟩⟩ : Rect).Valid ∧
    (Rect.new 2 2 2 2).Valid ∧
    ((Rect.new 1 4 2 3).expand_left 1).Valid ∧
    ((Rect.new 1 4 2 3).expand_right 1).Valid ∧
    ((Rect.new 1 4 2 3).expand_top 1).Valid ∧
    ((Rect.new 1 4 2 3).expand_bottom 1).Valid := by
  have hmain := c6_valid_preserved 1 4 2 3 1
  refine ⟨hmain.1 (by decide) (by decide), hmain.2.1 _ (by decide),
    hmain.2.2.1 (Rect.new 0 0 4 4) (Rect.new 2 2 4 4) _ (by decide),
    hmain.2.2.2.1 _ ⟨by decide, by decide⟩ (by decide),
    hmain.2.2.2.2.1 _ ⟨by decide, by decide⟩,
    hmain.2.2.2.2.2.1 _ ⟨by decide, by decide⟩ (by decide),
    hmain.2.2.2.2.2.2 _ ⟨by decide, by decide⟩⟩

/-- C7: `intersects` is reflexive for every range, including degenerate and
reversed ones, over any linearly ordered type. -/
theorem c7_intersects_refl {T : Type} [LinearOrder T] (a : RangeExclusive T) :
    a.intersects a = true := by
  simp [RangeExclusive.intersects]

/-- C8: `intersects` is symmetric for all ranges over any linearly ordered type. -/
theorem c8_intersects_symm {T : Type} [LinearOrder T] (a b : RangeExclusive T) :
    a.intersects b = b.intersects a := by
  unfold RangeExclusive.intersects
  rw [show (decide (a = b)) = (decide (b = a)) from decide_eq_decide.mpr ⟨Eq.symm, Eq.symm⟩]
  cases a.contains_either b <;> cases b.contains_either a <;> simp

/-- C9: under the no-underflow precondition, `expand_left`/`expand_top` move the
origin back by `amount` and grow the matching dimension by `amount`, keeping the
opposite edge fixed; `expand_right`/`expand_bottom` keep the position and only
grow the dimension; the other axis is untouched in every case. -/
theorem c9_expand_frame (r : Rect) (v : Nat) :
    (v ≤ r.pos.x →
      (r.expand_left v).right = r.right ∧ (r.expand_left v).pos.x = r.pos.x - v ∧
      (r.expand_left v).size.width = r.size.width + v ∧
      (r.expand_left v).pos.y = r.pos.y ∧ (r.expand_left v).size.height = r.size.height) ∧
    (v ≤ r.pos.y →
      (r.expand_top v).bottom = r.bottom ∧ (r.expand_top v).pos.y = r.pos.y - v ∧
      (r.expand_top v).size.height = r.size.height + v ∧
      (r.expand_top v).pos.x = r.pos.x ∧ (r.expand_top v).size.width = r.size.width) ∧
    ((r.expand_right v).pos = r.pos ∧ (r.expand_right v).size.width = r.size.width + v ∧
      (r.expand_right v).size.height = r.size.height) ∧
    ((r.expand_bottom v).pos = r.pos ∧ (r.expand_bottom v).size.height = r.size.height + v ∧
      (r.expand_bottom v).size.width = r.size.width) := by
  refine ⟨?_, ?_, ?_, ?_⟩
  · intro hv
    refine ⟨?_, rfl, rfl, rfl, rfl⟩
    simp only [Rect.expand_left, Rect.right]
    omega
  · intro hv
    refine ⟨?_, rfl, rfl, rfl, rfl⟩
    simp only [Rect.expand_top, Rect.bottom]
    omega
  · exact ⟨rfl, rfl, rfl⟩
  · exact ⟨rfl, rfl, rfl⟩

/-- Witness for C9 at the rectangle (5, 6, 2×3) expanded by 2. -/
theorem c9_expand_frame_witness :
    (((Rect.new 5 6 2 3).expand_left 2).right = (Rect.new 5 6 2 3).right ∧
      ((Rect.new 5 6 2 3).expand_left 2).pos.x = (Rect.new 5 6 2 3).pos.x - 2 ∧
      ((Rect.new 5 6 2 3).expand_left 2).size.width = (Rect.new 5 6 2 3).size.width + 2 ∧
      ((Rect.new 5 6 2 3).expand_left 2).pos.y = (Rect.new 5 6 2 3).pos.y ∧
      ((Rect.new 5 6 2 3).expand_left 2).size.height = (Rect.new 5 6 2 3).size.height) ∧
    (((Rect.new 5 6 2 3).expand_top 2).bottom = (Rect.new 5 6 2 3).bottom ∧
      ((Rect.new 5 6 2 3).expand_top 2).pos.y = (Rect.new 5 6 2 3).pos.y - 2 ∧
      ((Rect.new 5 6 2 3).expand_top 2).size.height = (Rect.new 5 6 2 3).size.height + 2 ∧
      ((Rect.new 5 6 2 3).expand_top 2).pos.x = (Rect.new 5 6 2 3).pos.x ∧
      ((Rect.new 5 6 2 3).expand_top 2).size.width = (Rect.new 5 6 2 3).size.width) :=
  ⟨(c9_expand_frame (Rect.new 5 6 2 3) 2).1 (by decide),
    (c9_expand_frame (Rect.new 5 6 2 3) 2).2.1 (by decide)⟩

/-- C10: `overlap` is commutative. -/
theorem c10_overlap_comm (a b : Rect) : a.overlap b = b.overlap a := by
  unfold Rect.overlap
  rw [Nat.max_comm a.left, Nat.min_comm a.right, Nat.max_comm a.top, Nat.min_comm a.bottom]

theorem mem_dedupAdj {x : Nat} : ∀ {l : List Nat}, x ∈ dedupAdj l ↔ x ∈ l
  | [] => Iff.rfl
  | [a] => Iff.rfl
  | a :: b :: rest => by
    by_cases h : a = b
    · have he : dedupAdj (a :: b :: rest) = dedupAdj (b :: rest) := by
        simp [dedupAdj, h]
      rw [he, mem_dedupAdj (l := b :: rest)]
      subst h
      simp only [List.mem_cons]
      tauto
    · simp only [dedupAdj, if_neg h, List.mem_cons, mem_dedupAdj (l := b :: rest)]

theorem sorted_lt_dedupAdj : ∀ {l : List Nat}, l.Sorted (· ≤ ·) → (dedupAdj l).Sorted (· < ·)
  | [], _ => by simp [dedupAdj]
  | [a], _ => by simp [dedupAdj]
  | a :: b :: rest, h => by
    have htail : (b :: rest).Sorted (· ≤ ·) := h.of_cons
    by_cases hab : a = b
    · simpa only [dedupAdj, if_pos hab] using sorted_lt_dedupAdj htail
    · simp only [dedupAdj, if_neg hab]
      refine List.sorted_cons.mpr ⟨?_, sorted_lt_dedupAdj htail⟩
      intro z hz
      have hz2 : z ∈ b :: rest := mem_dedupAdj.mp hz
      have hb : a ≤ b := List.rel_of_sorted_cons h b (by simp)
      rcases List.mem_cons.mp hz2 with rfl | hz3
      · omega
      · have hbz : b ≤ z := List.rel_of_sorted_cons htail z hz3
        omega

theorem mem_zip_mem {p : Nat × Nat} : ∀ {xs : List Nat}, p ∈ xs.zip xs.tail → p.1 ∈ xs ∧ p.2 ∈ xs
  | [], h => by simp at h
  | [a], h => by simp at h
  | a :: b :: rest, h => by
    rw [List.tail_cons, List.zip_cons_cons] at h
    rcases List.mem_cons.mp h with h1 | h2
    · subst h1
      simp
    · have h3 : p ∈ (b :: rest).zip (b :: rest).tail := by rw [List.tail_cons]; exact h2
      have hm := mem_zip_mem h3
      exact ⟨List.mem_cons_of_mem _ hm.1, List.mem_cons_of_mem _ hm.2⟩

/-- For adjacent cut lines `(p.1, p.2)`, every cut line is on one side. -/
theorem zip_separation : ∀ (xs : List Nat), xs.Sorted (· < ·) →
    ∀ (p : Nat × Nat), p ∈ xs.zip xs.tail → ∀ z ∈ xs, z ≤ p.1 ∨ p.2 ≤ z
  | [], _, p, hp => by simp at hp
  | [a], _, p, hp => by simp at hp
  | a :: b :: rest, hs, p, hp => by
    intro z hz
    rw [List.tail_cons, List.zip_cons_cons] at hp
    rcases List.mem_cons.mp hp with h1 | hp2
    · subst h1
      rcases List.mem_cons.mp hz with rfl | hz2
      · exact Or.inl le_rfl
      · rcases List.mem_cons.mp hz2 with rfl | hz3
        · exact Or.inr le_rfl
        · exact Or.inr (le_of_lt (List.rel_of_sorted_cons hs.of_cons z hz3))
    · have hp3 : p ∈ (b :: rest).zip (b :: rest).tail := by rw [List.tail_cons]; exact hp2
      rcases List.mem_cons.mp hz with rfl | hz2
      · exact Or.inl (le_of_lt (List.rel_of_sorted_cons hs p.1 (mem_zip_mem hp3).1))
      · exact zip_separation (b :: rest) hs.of_cons p hp3 z hz2

/-- Any value with a cut line at or below it and one above it lies in some strip. -/
theorem zip_cover : ∀ (xs : List Nat), xs.Sorted (· < ·) → ∀ (x : Nat),
    (∃ z ∈ xs, z ≤ x) → (∃ z ∈ xs, x < z) →
    ∃ p ∈ xs.zip xs.tail, p.1 ≤ x ∧ x < p.2
  | [], _, x, h1, _ => by simp at h1
  | [a], _, x, h1, h2 => by
    obtain ⟨z1, hz1, hle⟩ := h1
    obtain ⟨z2, hz2, hlt⟩ := h2
    simp only [List.mem_singleton] at hz1 hz2
    omega
  | a :: b :: rest, hs, x, h1, h2 => by
    by_cases hbx : x < b
    · have hax : a ≤ x := by
        obtain ⟨z1, hz1, hle⟩ := h1
        rcases List.mem_cons.mp hz1 with rfl | hz2
        · exact hle
        · have hbz : b ≤ z1 := by
            rcases List.mem_cons.mp hz2 with rfl | hz3
            · exact le_rfl
            · exact le_of_lt (List.rel_of_sorted_cons hs.of_cons z1 hz3)
          omega
      exact ⟨(a, b), by rw [List.tail_cons, List.zip_cons_cons]; simp, hax, hbx⟩
    · push_neg at hbx
      have h2b : ∃ z ∈ b :: rest, x < z := by
        obtain ⟨z2, hz2, hlt⟩ := h2
        rcases List.mem_cons.mp hz2 with rfl | hz3
        · have hab : z2 < b := List.rel_of_sorted_cons hs b (by simp)
          omega
        · exact ⟨z2, hz3, hlt⟩
      obtain ⟨p, hp, hpx⟩ := zip_cover (b :: rest) hs.of_cons x ⟨b, by simp, hbx⟩ h2b
      refine ⟨p, ?_, hpx⟩
      rw [List.tail_cons, List.zip_cons_cons]
      rw [List.tail_cons] at hp
      exact List.mem_cons_of_mem _ hp

theorem le_getLast_of_sorted : ∀ (xs : List Nat), xs.Sorted (· ≤ ·) → (hne : xs ≠ []) →
    ∀ z ∈ xs, z ≤ xs.getLast hne
  | [], _, hne => absurd rfl hne
  | [a], _, _ => by simp
  | a :: b :: rest, h, _ => by
    intro z hz
    rw [List.getLast_cons (by simp)]
    rcases List.mem_cons.mp hz with rfl | hz2
    · exact List.rel_of_sorted_cons h _ (List.getLast_mem (by simp))
    · exact le_getLast_of_sorted (b :: rest) h.of_cons (by simp) z hz2

theorem sorted_cutLines (rects : List Rect) : (cutLines rects).Sorted (· < ·) :=
  sorted_lt_dedupAdj (List.sorted_insertionSort _ _)

theorem mem_cutLines {rects : List Rect} {x : Nat} :
    x ∈ cutLines rects ↔ ∃ r ∈ rects, x = r.left ∨ x = r.right := by
  unfold cutLines
  rw [mem_dedupAdj, List.Perm.mem_iff (List.perm_insertionSort _ _), List.mem_flatMap]
  constructor
  · rintro ⟨r, hr, hx⟩
    rcases List.mem_cons.mp hx with h1 | h2
    · exact ⟨r, hr, Or.inl h1⟩
    · exact ⟨r, hr, Or.inr (List.mem_singleton.mp h2)⟩
  · rintro ⟨r, hr, h1 | h2⟩
    · exact ⟨r, hr, by simp [h1]⟩
    · exact ⟨r, hr, by simp [h2]⟩

theorem colUnion_cons (r : Rect) (l : List Rect) :
    colUnion (r :: l) = Finset.Ico r.top r.bottom ∪ colUnion l := rfl

theorem mem_colUnion {y : Nat} : ∀ {l : List Rect},
    y ∈ colUnion l ↔ ∃ r ∈ l, r.top ≤ y ∧ y < r.bottom
  | [] => by simp [colUnion]
  | r :: rest => by
    rw [colUnion_cons, Finset.mem_union, Finset.mem_Ico, mem_colUnion (l := rest)]
    constructor
    · rintro (h1 | ⟨r2, hr2, h2⟩)
      · exact ⟨r, List.mem_cons_self r rest, h1⟩
      · exact ⟨r2, List.mem_cons_of_mem _ hr2, h2⟩
    · rintro ⟨r2, hr2, h2⟩
      rcases List.mem_cons.mp hr2 with rfl | hmem
      · exact Or.inl h2
      · exact Or.inr ⟨r2, hmem, h2⟩

/-- The sweep over a top-sorted list of rectangles measures, scaled by `w`,
exactly the part of their y-interval union lying at or above `m`. -/
theorem stripSweep_eq (w : Nat) : ∀ (l : List Rect) (m : Nat),
    l.Pairwise (fun a b => a.top ≤ b.top) →
    stripSweep w l m = w * ((colUnion l).filter fun y => m ≤ y).card
  | [], m, _ => by simp [stripSweep, colUnion]
  | r :: rest, m, hp => by
    have hS : ∀ y ∈ colUnion rest, r.top ≤ y := by
      intro y hy
      obtain ⟨r2, hr2, ht, _⟩ := mem_colUnion.mp hy
      exact le_trans (List.rel_of_pairwise_cons hp hr2) ht
    have hset : ((colUnion (r :: rest)).filter fun y => m ≤ y)
        = Finset.Ico (max m r.top) r.bottom ∪
            ((colUnion rest).filter fun y => max r.bottom m ≤ y) := by
      ext y
      simp only [colUnion_cons, Finset.mem_filter, Finset.mem_union, Finset.mem_Ico]
      by_cases hy : y ∈ colUnion rest
      · have hty := hS y hy
        simp only [hy, or_true, true_and, and_true]
        constructor
        · intro hm
          omega
        · intro h
          omega
      · simp only [hy, or_false, false_and, and_false]
        omega
    have hdisj : Disjoint (Finset.Ico (max m r.top) r.bottom)
        ((colUnion rest).filter fun y => max r.bottom m ≤ y) := by
      rw [Finset.disjoint_left]
      intro y h1 h2
      have hb1 := (Finset.mem_Ico.mp h1).2
      have hb2 := (Finset.mem_filter.mp h2).2
      omega
    rw [stripSweep, stripSweep_eq w rest (max r.bottom m) hp.of_cons, hset,
      Finset.card_union_of_disjoint hdisj, Nat.card_Ico, Nat.mul_add]

theorem mem_cells {p : Nat × Nat} {r : Rect} :
    p ∈ r.cells ↔ (r.left ≤ p.1 ∧ p.1 < r.right) ∧ (r.top ≤ p.2 ∧ p.2 < r.bottom) := by
  simp [Rect.cells, Finset.mem_product, Finset.mem_Ico]

theorem unionCells_cons (r : Rect) (l : List Rect) :
    unionCells (r :: l) = r.cells ∪ unionCells l := rfl

theorem mem_unionCells {p : Nat × Nat} : ∀ {l : List Rect},
    p ∈ unionCells l ↔ ∃ r ∈ l, p ∈ r.cells
  | [] => by simp [unionCells]
  | r :: rest => by
    rw [unionCells_cons, Finset.mem_union, mem_unionCells (l := rest)]
    constructor
    · rintro (h1 | ⟨r2, hr2, h2⟩)
      · exact ⟨r, List.mem_cons_self r rest, h1⟩
      · exact ⟨r2, List.mem_cons_of_mem _ hr2, h2⟩
    · rintro ⟨r2, hr2, h2⟩
      rcases List.mem_cons.mp hr2 with rfl | hmem
      · exact Or.inl h2
      · exact Or.inr ⟨r2, hmem, h2⟩

theorem right_le_maxRight : ∀ {rects : List Rect} {r : Rect}, r ∈ rects → r.right ≤ maxRight rects
  | [], r, h => by simp at h
  | r0 :: rest, r, h => by
    rcases List.mem_cons.mp h with rfl | h2
    · exact le_max_left _ _
    · exact le_trans (right_le_maxRight h2) (le_max_right _ _)

theorem bottom_le_maxBottom : ∀ {rects : List Rect} {r : Rect},
    r ∈ rects → r.bottom ≤ maxBottom rects
  | [], r, h => by simp at h
  | r0 :: rest, r, h => by
    rcases List.mem_cons.mp h with rfl | h2
    · exact le_max_left _ _
    · exact le_trans (bottom_le_maxBottom h2) (le_max_right _ _)

/-- Within a strip between adjacent cut lines, a rectangle covers one column
iff it spans the whole strip. -/
theorem strip_filter_covers {rects : List Rect} {p : Nat × Nat}
    (hp : p ∈ (cutLines rects).zip (cutLines rects).tail)
    {x : Nat} (hx1 : p.1 ≤ x) (hx2 : x < p.2) {r : Rect} (hr : r ∈ rects) :
    (r.left ≤ x ∧ x < r.right) ↔ (r.left ≤ p.1 ∧ p.2 ≤ r.right) := by
  have hleft : r.left ∈ cutLines rects := mem_cutLines.mpr ⟨r, hr, Or.inl rfl⟩
  have hright : r.right ∈ cutLines rects := mem_cutLines.mpr ⟨r, hr, Or.inr rfl⟩
  have hsl := zip_separation _ (sorted_cutLines rects) p hp r.left hleft
  have hsr := zip_separation _ (sorted_cutLines rects) p hp r.right hright
  constructor
  · intro h
    constructor
    · rcases hsl with h1 | h1
      · exact h1
      · omega
    · rcases hsr with h1 | h1
      · omega
      · exact h1
  · intro h
    omega

theorem mem_spanFilter {rects : List Rect} {l u : Nat} {r : Rect} :
    r ∈ ((sortedByTop rects).filter fun s => decide (s.left ≤ l ∧ u ≤ s.right)) ↔
      r ∈ rects ∧ (r.left ≤ l ∧ u ≤ r.right) := by
  rw [List.mem_filter, decide_eq_true_eq]
  constructor
  · rintro ⟨h1, h2⟩
    exact ⟨(List.perm_insertionSort _ rects).mem_iff.mp h1, h2⟩
  · rintro ⟨h1, h2⟩
    exact ⟨(List.perm_insertionSort _ rects).mem_iff.mpr h1, h2⟩

/-- The covered cells of one column inside a strip are exactly the strip's
y-interval union, tagged with the column's abscissa. -/
theorem fiber_eq_image {rects : List Rect} {p : Nat × Nat}
    (hp : p ∈ (cutLines rects).zip (cutLines rects).tail)
    {x : Nat} (hx1 : p.1 ≤ x) (hx2 : x < p.2) :
    ((unionCells rects).filter fun q => q.1 = x)
      = (colUnion ((sortedByTop rects).filter fun r =>
          decide (r.left ≤ p.1 ∧ p.2 ≤ r.right))).image (fun y => (x, y)) := by
  ext q
  obtain ⟨qx, qy⟩ := q
  simp only [Finset.mem_filter, Finset.mem_image, mem_unionCells, mem_colUnion, mem_spanFilter,
    mem_cells]
  constructor
  · rintro ⟨⟨r, hr, hh, hv⟩, hqx⟩
    subst hqx
    refine ⟨qy, ⟨r, ⟨hr, ?_⟩, hv⟩, rfl⟩
    exact (strip_filter_covers hp hx1 hx2 hr).mp hh
  · rintro ⟨y, ⟨r, ⟨hr, hspan⟩, hy⟩, hq⟩
    cases hq
    refine ⟨⟨r, hr, ?_, hy⟩, rfl⟩
    exact (strip_filter_covers hp hx1 hx2 hr).mpr hspan

theorem colCard_eq_on_strip {rects : List Rect} {p : Nat × Nat}
    (hp : p ∈ (cutLines rects).zip (cutLines rects).tail)
    {x : Nat} (hx1 : p.1 ≤ x) (hx2 : x < p.2) :
    colCard rects x = (colUnion ((sortedByTop rects).filter fun r =>
      decide (r.left ≤ p.1 ∧ p.2 ≤ r.right))).card := by
  unfold colCard
  rw [fiber_eq_image hp hx1 hx2]
  exact Finset.card_image_of_injective _ (fun y1 y2 h => by simpa using h)

/-- Adjacent strips concatenate: summing a function strip by strip from the
first cut line to the last equals one sum over the whole span. -/
theorem strip_sum_concat (g : Nat → Nat) : ∀ (xs : List Nat) (a : Nat),
    (a :: xs).Sorted (· ≤ ·) →
    (((a :: xs).zip xs).map fun p => ∑ x ∈ Finset.Ico p.1 p.2, g x).sum
      = ∑ x ∈ Finset.Ico a ((a :: xs).getLast (by simp)), g x
  | [], a, _ => by simp
  | b :: rest, a, hs => by
    rw [List.zip_cons_cons, List.map_cons, List.sum_cons,
      strip_sum_concat g rest b hs.of_cons]
    have hab : a ≤ b := List.rel_of_sorted_cons hs b (by simp)
    have hblast : b ≤ (b :: rest).getLast (by simp) :=
      le_getLast_of_sorted _ hs.of_cons (by simp) b (by simp)
    have hgl : (a :: b :: rest).getLast (by simp) = (b :: rest).getLast (by simp) :=
      List.getLast_cons (by simp)
    rw [hgl]
    exact Finset.sum_Ico_consecutive g hab hblast

/-- Core result behind C1: `covered_area` counts exactly the cells of the
union of the rectangles' regions. -/
theorem covered_area_eq_card (rects : List Rect) :
    covered_area rects = (unionCells rects).card := by
  rcases hxs : cutLines rects with _ | ⟨a, xs1⟩
  · have hre : rects = [] := by
      cases rects with
      | nil => rfl
      | cons r rest =>
        exfalso
        have hmem : r.left ∈ cutLines (r :: rest) :=
          mem_cutLines.mpr ⟨r, by simp, Or.inl rfl⟩
        rw [hxs] at hmem
        simp at hmem
    subst hre
    rfl
  · have hsortlt : (a :: xs1).Sorted (· < ·) := hxs ▸ sorted_cutLines rects
    have hsortle : (a :: xs1).Sorted (· ≤ ·) := hsortlt.imp le_of_lt
    have hheadle : ∀ z ∈ cutLines rects, a ≤ z := by
      rw [hxs]
      intro z hz
      rcases List.mem_cons.mp hz with rfl | h
      · exact le_rfl
      · exact le_of_lt (List.rel_of_sorted_cons hsortlt z h)
    have hlastle : (a :: xs1).getLast (by simp) ≤ maxRight rects := by
      have hmem : (a :: xs1).getLast (by simp) ∈ cutLines rects := by
        rw [hxs]
        exact List.getLast_mem (by simp)
      obtain ⟨r, hr, h | h⟩ := mem_cutLines.mp hmem
      · rw [h]
        exact le_trans (Nat.le_add_right _ _) (right_le_maxRight hr)
      · rw [h]
        exact right_le_maxRight hr
    have hg0 : ∀ x ∈ Finset.range (maxRight rects),
        x ∉ Finset.Ico a ((a :: xs1).getLast (by simp)) → colCard rects x = 0 := by
      intro x hx hnot
      unfold colCard
      rw [Finset.card_eq_zero, Finset.filter_eq_empty_iff]
      intro q hq hqx
      obtain ⟨r, hr, hcell⟩ := mem_unionCells.mp hq
      rw [mem_cells] at hcell
      apply hnot
      rw [Finset.mem_Ico]
      have h1 : a ≤ r.left := hheadle _ (mem_cutLines.mpr ⟨r, hr, Or.inl rfl⟩)
      have h2 : r.right ≤ (a :: xs1).getLast (by simp) :=
        le_getLast_of_sorted (a :: xs1) hsortle (by simp) r.right
          (by rw [← hxs]; exact mem_cutLines.mpr ⟨r, hr, Or.inr rfl⟩)
      have h3 := hcell.1.1
      have h4 := hcell.1.2
      omega
    calc covered_area rects
        = (((a :: xs1).zip xs1).map fun p =>
            stripSweep (p.2 - p.1) ((sortedByTop rects).filter fun r =>
              decide (r.left ≤ p.1 ∧ p.2 ≤ r.right)) 0).sum := by
          unfold covered_area
          rw [hxs, List.tail_cons]
      _ = (((a :: xs1).zip xs1).map fun p =>
            ∑ x ∈ Finset.Ico p.1 p.2, colCard rects x).sum := by
          apply congrArg List.sum
          apply List.map_congr_left
          intro p hp
          have hp2 : p ∈ (cutLines rects).zip (cutLines rects).tail := by
            rw [hxs, List.tail_cons]
            exact hp
          have hpairf : ((sortedByTop rects).filter fun r =>
              decide (r.left ≤ p.1 ∧ p.2 ≤ r.right)).Pairwise (fun a b => a.top ≤ b.top) :=
            (List.sorted_insertionSort _ rects).filter _
          rw [stripSweep_eq _ _ _ hpairf,
            Finset.filter_true_of_mem (fun y _ => Nat.zero_le y)]
          have hfun : ∀ x ∈ Finset.Ico p.1 p.2, colCard rects x
              = (colUnion ((sortedByTop rects).filter fun r =>
                  decide (r.left ≤ p.1 ∧ p.2 ≤ r.right))).card := by
            intro x hx
            have hxm := Finset.mem_Ico.mp hx
            exact colCard_eq_on_strip hp2 hxm.1 hxm.2
          rw [Finset.sum_const_nat hfun, Nat.card_Ico]
      _ = ∑ x ∈ Finset.Ico a ((a :: xs1).getLast (by simp)), colCard rects x :=
          strip_sum_concat (colCard rects) xs1 a hsortle
      _ = ∑ x ∈ Finset.range (maxRight rects), colCard rects x := by
          apply Finset.sum_subset
          · intro x hx
            rw [Finset.mem_Ico] at hx
            rw [Finset.mem_range]
            omega
          · exact hg0
      _ = (unionCells rects).card := by
          symm
          apply Finset.card_eq_sum_card_fiberwise
          intro q hq
          obtain ⟨r, hr, hcell⟩ := mem_unionCells.mp hq
          rw [mem_cells] at hcell
          rw [Finset.mem_range]
          exact lt_of_lt_of_le hcell.1.2 (right_le_maxRight hr)

/-- C1: for every finite list of rectangles with strictly positive width and
height, `covered_area` returns exactly the area (cell count) of the set-union
of the rectangles' regions; in particular it returns 0 for the empty list. -/
theorem c1_covered_area_is_union_area (rects : List Rect)
    (hpos : ∀ r ∈ rects, 0 < r.size.width ∧ 0 < r.size.height) :
    covered_area rects = (unionCells rects).card ∧ covered_area [] = 0 :=
  ⟨covered_area_eq_card rects, rfl⟩

/-- Witness for C1 at two overlapping 4×4 rectangles. -/
theorem c1_covered_area_witness :
    covered_area [Rect.new 0 0 4 4, Rect.new 2 2 4 4]
        = (unionCells [Rect.new 0 0 4 4, Rect.new 2 2 4 4]).card ∧
      covered_area [] = 0 :=
  c1_covered_area_is_union_area [Rect.new 0 0 4 4, Rect.new 2 2 4 4] (by decide)

/-- A cell lies in some overlap rectangle of `a` and `b` iff it lies in both. -/
theorem cells_overlap (a b : Rect) (c : Nat × Nat) :
    (∃ s, a.overlap b = some s ∧ c ∈ s.cells) ↔ (c ∈ a.cells ∧ c ∈ b.cells) := by
  rw [overlap_eq]
  by_cases h : max a.left b.left < min a.right b.right ∧ max a.top b.top < min a.bottom b.bottom
  · rw [if_pos h]
    constructor
    · rintro ⟨s, hs, hc⟩
      injection hs with hs
      subst hs
      rw [mem_cells] at hc
      rw [mem_cells, mem_cells]
      simp only [Rect.left, Rect.right, Rect.top, Rect.bottom] at h hc ⊢
      omega
    · rintro ⟨h1, h2⟩
      rw [mem_cells] at h1 h2
      refine ⟨_, rfl, ?_⟩
      rw [mem_cells]
      simp only [Rect.left, Rect.right, Rect.top, Rect.bottom] at h h1 h2 ⊢
      omega
  · rw [if_neg h]
    constructor
    · rintro ⟨s, hs, _⟩
      exact absurd hs (by simp)
    · rintro ⟨h1, h2⟩
      rw [mem_cells] at h1 h2
      exfalso
      apply h
      simp only [Rect.left, Rect.right, Rect.top, Rect.bottom] at h1 h2 ⊢
      omega

theorem enum_pairwise_ne (l : List Rect) : l.enum.Pairwise (fun a b => a.1 ≠ b.1) := by
  have h : (List.map Prod.fst l.enum).Nodup := by
    rw [List.enum_map_fst]
    exact List.nodup_range _
  rw [List.Nodup, List.pairwise_map] at h
  exact h

theorem two_mem_le_length {α : Type} {l : List α} {a b : α}
    (ha : a ∈ l) (hb : b ∈ l) (hne : a ≠ b) : 2 ≤ l.length := by
  cases l with
  | nil => simp at ha
  | cons x rest =>
    cases rest with
    | nil =>
      simp only [List.mem_singleton] at ha hb
      subst ha
      subst hb
      exact absurd rfl hne
    | cons y rest2 =>
      simp only [List.length_cons]
      omega

theorem exists_ne_of_two_le_length_pairwise {l : List (Nat × Rect)} {p : Nat × Rect}
    (hlen : 2 ≤ l.length) (hpair : l.Pairwise (fun a b => a.1 ≠ b.1)) :
    ∃ q ∈ l, q.1 ≠ p.1 := by
  cases l with
  | nil => simp at hlen
  | cons q0 tl =>
    cases tl with
    | nil => simp at hlen
    | cons q1 tl2 =>
      have h01 : q0.1 ≠ q1.1 := (List.pairwise_cons.mp hpair).1 q1 (by simp)
      by_cases h0 : q0.1 = p.1
      · refine ⟨q1, by simp, ?_⟩
        rw [← h0]
        exact fun h => h01 h.symm
      · exact ⟨q0, by simp, h0⟩

theorem sum_ite_count {α : Type} (P : α → Prop) [DecidablePred P] :
    ∀ l : List α, (l.map fun a => if P a then 1 else 0).sum
      = (l.filter fun a => decide (P a)).length
  | [] => rfl
  | a :: rest => by
    by_cases h : P a <;> simp [List.filter_cons, h, sum_ite_count P rest] <;> omega

/-- `coverCount` counted over the enumerated list. -/
theorem coverCount_eq_enum (rects : List Rect) (c : Nat × Nat) :
    coverCount rects c = (rects.enum.filter fun q => decide (c ∈ q.2.cells)).length := by
  unfold coverCount
  conv_lhs => rw [← List.enum_map_snd rects]
  rw [List.filter_map]
  rw [List.length_map]
  rfl

theorem mem_unionCells_overlapsOf {rects : List Rect} {p : Nat × Rect} {c : Nat × Nat} :
    c ∈ unionCells (overlapsOf rects p) ↔
      (c ∈ p.2.cells ∧ ∃ q ∈ rects.enum, p.1 ≠ q.1 ∧ c ∈ q.2.cells) := by
  rw [mem_unionCells]
  unfold overlapsOf
  constructor
  · rintro ⟨s, hs, hc⟩
    obtain ⟨q, hqf, hov⟩ := List.mem_filterMap.mp hs
    obtain ⟨hq, hne⟩ := List.mem_filter.mp hqf
    have hc2 := (cells_overlap p.2 q.2 c).mp ⟨s, hov, hc⟩
    exact ⟨hc2.1, q, hq, of_decide_eq_true hne, hc2.2⟩
  · rintro ⟨hcp, q, hq, hne, hcq⟩
    obtain ⟨s, hov, hc⟩ := (cells_overlap p.2 q.2 c).mpr ⟨hcp, hcq⟩
    exact ⟨s, List.mem_filterMap.mpr ⟨q, List.mem_filter.mpr ⟨hq, decide_eq_true hne⟩, hov⟩, hc⟩

theorem unionCells_overlapsOf_subset {rects : List Rect} {p : Nat × Rect}
    (hp : p ∈ rects.enum) : unionCells (overlapsOf rects p) ⊆ allCells rects := by
  intro c hc
  obtain ⟨hcp, q, hq, hne2, hcq⟩ := mem_unionCells_overlapsOf.mp hc
  rw [mem_cells] at hcp
  unfold allCells
  rw [Finset.mem_product, Finset.mem_range, Finset.mem_range]
  have h1 : p.2 ∈ rects := List.snd_mem_of_mem_enum hp
  exact ⟨lt_of_lt_of_le hcp.1.2 (right_le_maxRight h1),
    lt_of_lt_of_le hcp.2.2 (bottom_le_maxBottom h1)⟩

theorem card_eq_sum_indicator {T S : Finset (Nat × Nat)} (h : S ⊆ T) :
    S.card = ∑ c ∈ T, (if c ∈ S then 1 else 0) := by
  rw [Finset.sum_ite_mem, Finset.inter_eq_right.mpr h, Finset.sum_const, smul_eq_mul, mul_one]

theorem list_sum_finset_sum_swap {α : Type} (T : Finset (Nat × Nat))
    (f : α → (Nat × Nat) → Nat) :
    ∀ l : List α, (l.map fun O => ∑ c ∈ T, f O c).sum = ∑ c ∈ T, (l.map fun O => f O c).sum
  | [] => by simp
  | O :: rest => by
    simp only [List.map_cons, List.sum_cons, list_sum_finset_sum_swap T f rest]
    rw [← Finset.sum_add_distrib]

/-- Per cell, summing the indicators of the per-rectangle overlap unions yields
the coverage count when it is at least 2, and 0 otherwise. -/
theorem inner_count (rects : List Rect) (c : Nat × Nat) :
    (rects.enum.map fun p => if c ∈ unionCells (overlapsOf rects p) then 1 else 0).sum
      = if 2 ≤ coverCount rects c then coverCount rects c else 0 := by
  have hiff : ∀ p ∈ rects.enum,
      (c ∈ unionCells (overlapsOf rects p)) ↔ (c ∈ p.2.cells ∧ 2 ≤ coverCount rects c) := by
    intro p hp
    rw [mem_unionCells_overlapsOf]
    constructor
    · rintro ⟨hcp, q, hq, hne, hcq⟩
      refine ⟨hcp, ?_⟩
      rw [coverCount_eq_enum]
      exact two_mem_le_length (List.mem_filter.mpr ⟨hp, decide_eq_true hcp⟩)
        (List.mem_filter.mpr ⟨hq, decide_eq_true hcq⟩)
        (fun h => hne (congrArg Prod.fst h))
    · rintro ⟨hcp, hk⟩
      rw [coverCount_eq_enum] at hk
      have hpairf : (rects.enum.filter fun q2 =>
          decide (c ∈ q2.2.cells)).Pairwise (fun a b => a.1 ≠ b.1) :=
        (enum_pairwise_ne rects).filter _
      obtain ⟨q, hqf, hqe⟩ := exists_ne_of_two_le_length_pairwise hk hpairf
      have hqm := List.mem_filter.mp hqf
      exact ⟨hcp, q, hqm.1, Ne.symm hqe, of_decide_eq_true hqm.2⟩
  by_cases hk : 2 ≤ coverCount rects c
  · have hmap : (rects.enum.map fun p => if c ∈ unionCells (overlapsOf rects p) then 1 else 0)
        = rects.enum.map fun p => if c ∈ p.2.cells then 1 else 0 := by
      apply List.map_congr_left
      intro p hp
      by_cases hc : c ∈ p.2.cells <;> simp [hiff p hp, hc, hk]
    rw [hmap, if_pos hk, coverCount_eq_enum]
    exact sum_ite_count (fun p => c ∈ p.2.cells) rects.enum
  · have hmap : (rects.enum.map fun p => if c ∈ unionCells (overlapsOf rects p) then 1 else 0)
        = rects.enum.map fun p => 0 := by
      apply List.map_congr_left
      intro p hp
      simp [hiff p hp, hk]
    rw [hmap, if_neg hk]
    simp

/-- The first term of `obscured_area` counts each multiply-covered cell once per
covering rectangle. -/
theorem sum_covered_overlaps (rects : List Rect) :
    ((allOverlaps rects).map covered_area).sum
      = ∑ c ∈ allCells rects,
          (if 2 ≤ coverCount rects c then coverCount rects c else 0) := by
  unfold allOverlaps
  rw [List.map_map]
  have h1 : rects.enum.map (covered_area ∘ overlapsOf rects)
      = rects.enum.map fun p =>
          ∑ c ∈ allCells rects, (if c ∈ unionCells (overlapsOf rects p) then 1 else 0) := by
    apply List.map_congr_left
    intro p hp
    show covered_area (overlapsOf rects p) = _
    rw [covered_area_eq_card]
    exact card_eq_sum_indicator (unionCells_overlapsOf_subset hp)
  rw [h1, list_sum_finset_sum_swap]
  exact Finset.sum_congr rfl fun c _ => inner_count rects c

theorem unionCells_append : ∀ (l1 l2 : List Rect),
    unionCells (l1 ++ l2) = unionCells l1 ∪ unionCells l2
  | [], l2 => by simp [unionCells]
  | r :: rest, l2 => by
    rw [List.cons_append, unionCells_cons, unionCells_cons, unionCells_append rest l2,
      Finset.union_assoc]

theorem mem_unionCells_flatten {c : Nat × Nat} : ∀ {l : List (List Rect)},
    c ∈ unionCells l.flatten ↔ ∃ O ∈ l, c ∈ unionCells O
  | [] => by simp [unionCells]
  | O :: rest => by
    rw [List.flatten_cons, unionCells_append, Finset.mem_union,
      mem_unionCells_flatten (l := rest)]
    constructor
    · rintro (h | ⟨O2, hO2, h⟩)
      · exact ⟨O, by simp, h⟩
      · exact ⟨O2, by simp [hO2], h⟩
    · rintro ⟨O2, hO2, h⟩
      rcases List.mem_cons.mp hO2 with rfl | h2
      · exact Or.inl h
      · exact Or.inr ⟨O2, h2, h⟩

/-- A cell belongs to the pooled overlap union iff at least two rectangles cover it. -/
theorem mem_pooled_iff {rects : List Rect} {c : Nat × Nat} :
    c ∈ unionCells (allOverlaps rects).flatten ↔ 2 ≤ coverCount rects c := by
  rw [mem_unionCells_flatten]
  constructor
  · rintro ⟨O, hO, hc⟩
    unfold allOverlaps at hO
    obtain ⟨p, hp, rfl⟩ := List.mem_map.mp hO
    obtain ⟨hcp, q, hq, hne, hcq⟩ := mem_unionCells_overlapsOf.mp hc
    rw [coverCount_eq_enum]
    exact two_mem_le_length (List.mem_filter.mpr ⟨hp, decide_eq_true hcp⟩)
      (List.mem_filter.mpr ⟨hq, decide_eq_true hcq⟩) (fun h => hne (congrArg Prod.fst h))
  · intro hk
    rw [coverCount_eq_enum] at hk
    have hpairf : (rects.enum.filter fun q2 =>
        decide (c ∈ q2.2.cells)).Pairwise (fun a b => a.1 ≠ b.1) :=
      (enum_pairwise_ne rects).filter _
    cases hfl : rects.enum.filter fun q2 => decide (c ∈ q2.2.cells) with
    | nil =>
      rw [hfl] at hk
      simp at hk
    | cons p tl =>
      have hpm : p ∈ rects.enum.filter fun q2 => decide (c ∈ q2.2.cells) := by
        rw [hfl]
        simp
      obtain ⟨q, hqf, hqe⟩ := exists_ne_of_two_le_length_pairwise hk hpairf (p := p)
      have hpmem := List.mem_filter.mp hpm
      have hqmem := List.mem_filter.mp hqf
      refine ⟨overlapsOf rects p, List.mem_map_of_mem _ hpmem.1, ?_⟩
      rw [mem_unionCells_overlapsOf]
      exact ⟨of_decide_eq_true hpmem.2, q, hqmem.1, Ne.symm hqe, of_decide_eq_true hqmem.2⟩

/-- The pooled union stays inside the bounding grid. -/
theorem pooled_subset (rects : List Rect) :
    unionCells (allOverlaps rects).flatten ⊆ allCells rects := by
  intro c hc
  have hk := mem_pooled_iff.mp hc
  have hex : ∃ r ∈ rects, c ∈ r.cells := by
    unfold coverCount at hk
    cases hfl : rects.filter fun r => decide (c ∈ r.cells) with
    | nil =>
      rw [hfl] at hk
      simp at hk
    | cons r tl =>
      have hrm : r ∈ rects.filter fun r2 => decide (c ∈ r2.cells) := by
        rw [hfl]
        simp
      have hm := List.mem_filter.mp hrm
      exact ⟨r, hm.1, of_decide_eq_true hm.2⟩
  obtain ⟨r, hr, hcr⟩ := hex
  rw [mem_cells] at hcr
  unfold allCells
  rw [Finset.mem_product, Finset.mem_range, Finset.mem_range]
  exact ⟨lt_of_lt_of_le hcr.1.2 (right_le_maxRight hr),
    lt_of_lt_of_le hcr.2.2 (bottom_le_maxBottom hr)⟩

/-- Core result behind C2 and C3: `obscured_area` gives every cell covered by
exactly `k ≥ 2` rectangles multiplicity `k - 1`, and every other cell 0. -/
theorem obscured_eq_sum (rects : List Rect) :
    obscured_area rects
      = ∑ c ∈ allCells rects,
          (if 2 ≤ coverCount rects c then coverCount rects c - 1 else 0) := by
  unfold obscured_area
  by_cases hlen : rects.length < 2
  · rw [if_pos hlen]
    symm
    apply Finset.sum_eq_zero
    intro c _
    have hkb : coverCount rects c ≤ rects.length := List.length_filter_le _ _
    rw [if_neg (by omega)]
  · rw [if_neg hlen, sum_covered_overlaps, covered_area_eq_card]
    have hpool : (unionCells (allOverlaps rects).flatten).card
        = ∑ c ∈ allCells rects, (if 2 ≤ coverCount rects c then 1 else 0) := by
      rw [card_eq_sum_indicator (pooled_subset rects)]
      apply Finset.sum_congr rfl
      intro c _
      by_cases h2 : 2 ≤ coverCount rects c
      · rw [if_pos (mem_pooled_iff.mpr h2), if_pos h2]
      · rw [if_neg (fun hc => h2 (mem_pooled_iff.mp hc)), if_neg h2]
    rw [hpool, ← Finset.sum_tsub_distrib (allCells rects) ?hle]
    case hle =>
      intro c _
      by_cases h2 : 2 ≤ coverCount rects c <;> simp [h2]
      omega
    apply Finset.sum_congr rfl
    intro c _
    by_cases h2 : 2 ≤ coverCount rects c <;> simp [h2]

/-- C2 counterexample: for three identical unit rectangles every point of the
square is covered by exactly k = 3 rectangles, so the claim as stated predicts
a contribution of exactly 1, but `obscured_area` returns 2 (= k - 1). -/
theorem c2_counterexample :
    ¬ (obscured_area [Rect.new 0 0 1 1, Rect.new 0 0 1 1, Rect.new 0 0 1 1]
        = ((allCells [Rect.new 0 0 1 1, Rect.new 0 0 1 1, Rect.new 0 0 1 1]).filter
            fun c => 2 ≤ coverCount [Rect.new 0 0 1 1, Rect.new 0 0 1 1, Rect.new 0 0 1 1] c).card)
    := by decide

/-- C2 (amended): a point covered by exactly `k` rectangles contributes to
`obscured_area` iff `k ≥ 2`, with multiplicity `k - 1` (exactly once when
`k = 2`, but `k - 1` times when `k > 2`, matching the code's doc comment). -/
theorem c2_obscured_area_multiplicity (rects : List Rect) :
    obscured_area rects
      = ∑ c ∈ allCells rects,
          (if 2 ≤ coverCount rects c then coverCount rects c - 1 else 0) :=
  obscured_eq_sum rects

/-- A successful overlap's region is exactly the intersection of the two regions. -/
theorem overlap_cells_eq {a b s : Rect} (h : a.overlap b = some s) :
    s.cells = a.cells ∩ b.cells := by
  ext c
  rw [Finset.mem_inter, ← cells_overlap a b c]
  constructor
  · intro hc
    exact ⟨s, h, hc⟩
  · rintro ⟨s2, hs2, hc⟩
    rw [h] at hs2
    injection hs2 with hs2
    subst hs2
    exact hc

/-- When `overlap` returns none the two regions share no cell. -/
theorem overlap_none_cells {a b : Rect} (h : a.overlap b = none) :
    a.cells ∩ b.cells = ∅ := by
  ext c
  simp only [Finset.mem_inter, Finset.not_mem_empty, iff_false]
  intro hc
  obtain ⟨s, hs, _⟩ := (cells_overlap a b c).mpr hc
  rw [h] at hs
  exact absurd hs (by simp)

/-- The cell count of a rectangle's region is its area. -/
theorem cells_card (r : Rect) : r.cells.card = r.size.width * r.size.height := by
  unfold Rect.cells
  rw [Finset.card_product, Nat.card_Ico, Nat.card_Ico]
  simp [Rect.left, Rect.right, Rect.top, Rect.bottom]

/-- C3: for a chain A-B-C where A overlaps B, B overlaps C, A does not overlap
C, and there is no common triple intersection, `obscured_area [A, B, C]` is the
sum of the two pairwise overlap areas. -/
theorem c3_chain_obscured (A B C ab bc : Rect)
    (hAB : A.overlap B = some ab) (hBC : B.overlap C = some bc)
    (hAC : A.overlap C = none)
    (hT : A.cells ∩ B.cells ∩ C.cells = ∅) :
    obscured_area [A, B, C] = ab.area + bc.area := by
  rw [obscured_eq_sum]
  have hACe : A.cells ∩ C.cells = ∅ := overlap_none_cells hAC
  have hnotAC : ∀ c : Nat × Nat, ¬ (c ∈ A.cells ∧ c ∈ C.cells) := by
    intro c h
    have hm : c ∈ A.cells ∩ C.cells := Finset.mem_inter.mpr h
    rw [hACe] at hm
    exact absurd hm (Finset.not_mem_empty c)
  have hpt : ∀ c ∈ allCells [A, B, C],
      (if 2 ≤ coverCount [A, B, C] c then coverCount [A, B, C] c - 1 else 0)
        = if c ∈ (A.cells ∩ B.cells ∪ B.cells ∩ C.cells) then 1 else 0 := by
    intro c _
    have hcount : coverCount [A, B, C] c
        = (if c ∈ A.cells then 1 else 0)
            + ((if c ∈ B.cells then 1 else 0) + (if c ∈ C.cells then 1 else 0)) := by
      by_cases hA : c ∈ A.cells <;> by_cases hB : c ∈ B.cells <;> by_cases hC : c ∈ C.cells <;>
        simp [coverCount, List.filter_cons, hA, hB, hC]
    by_cases hA : c ∈ A.cells <;> by_cases hC : c ∈ C.cells
    · exact absurd ⟨hA, hC⟩ (hnotAC c)
    · by_cases hB : c ∈ B.cells <;>
        simp [hcount, hA, hB, hC, Finset.mem_union, Finset.mem_inter]
    · by_cases hB : c ∈ B.cells <;>
        simp [hcount, hA, hB, hC, Finset.mem_union, Finset.mem_inter]
    · by_cases hB : c ∈ B.cells <;>
        simp [hcount, hA, hB, hC, Finset.mem_union, Finset.mem_inter]
  rw [Finset.sum_congr rfl hpt]
  have hsub : (A.cells ∩ B.cells ∪ B.cells ∩ C.cells) ⊆ allCells [A, B, C] := by
    intro c hc
    have hex : ∃ r ∈ [A, B, C], c ∈ r.cells := by
      rcases Finset.mem_union.mp hc with h | h
      · exact ⟨A, by simp, (Finset.mem_inter.mp h).1⟩
      · exact ⟨B, by simp, (Finset.mem_inter.mp h).1⟩
    obtain ⟨r, hr, hcr⟩ := hex
    rw [mem_cells] at hcr
    unfold allCells
    rw [Finset.mem_product, Finset.mem_range, Finset.mem_range]
    exact ⟨lt_of_lt_of_le hcr.1.2 (right_le_maxRight hr),
      lt_of_lt_of_le hcr.2.2 (bottom_le_maxBottom hr)⟩
  rw [← card_eq_sum_indicator hsub]
  have hdisj : Disjoint (A.cells ∩ B.cells) (B.cells ∩ C.cells) := by
    rw [Finset.disjoint_left]
    intro c h1 h2
    exact hnotAC c ⟨(Finset.mem_inter.mp h1).1, (Finset.mem_inter.mp h2).2⟩
  rw [Finset.card_union_of_disjoint hdisj, ← overlap_cells_eq hAB, ← overlap_cells_eq hBC,
    cells_card, cells_card]
  rfl

/-- Witness for C3 at the chain (0,0,4×4), (2,0,4×4), (5,0,4×4). -/
theorem c3_chain_obscured_witness :
    obscured_area [Rect.new 0 0 4 4, Rect.new 2 0 4 4, Rect.new 5 0 4 4]
      = (Rect.new 2 0 2 4).area + (Rect.new 5 0 1 4).area :=
  c3_chain_obscured (Rect.new 0 0 4 4) (Rect.new 2 0 4 4) (Rect.new 5 0 4 4)
    (Rect.new 2 0 2 4) (Rect.new 5 0 1 4) (by decide) (by decide) (by decide) (by decide)
